import Mathlib

/-!
Verification of the torrent-mutator fragment of a Transmission RPC client
(`torrent_mutators.go`).

The embedding below translates the Go source:

* `compact` (the in-place adjacent-deduplication helper) is modelled with an
  explicit backing list and index-passing loops mirroring the Go control flow;
  `compact` returns the value of the returned slice (`s[:k]`), while
  `compactBacking` returns the whole backing array after the call (which the
  caller's original slice header still views, Go slices sharing their backing
  array).
* `TorrentSetPayload` is the request struct; Go pointer fields and Go slice
  fields become `Option` values (`none` = nil pointer / nil slice, `some []` =
  non-nil empty slice).  `time.Duration` is an `Int` number of nanoseconds,
  `float64` is an uninterpreted bit-pattern carrier (the encoder copies it
  verbatim and never computes with it).
* `marshalJSON` is the custom `MarshalJSON`: the reflection walk over the
  auxiliary struct (overloaded `seedIdleLimit` and `trackerList` fields first,
  then the embedded base struct's fields in declaration order, skipping the
  two `json:"-"` fields), inserting a key exactly for each non-nil field.
  The Go code accumulates into a `map[string]interface{}`; keys are pairwise
  distinct, so the association list in walk order is a faithful model of the
  resulting mapping.
* `TorrentSet` validates the id list, sorts and compacts the tracker list in
  place, and invokes the transport once; the transport is a function
  parameter, and the result records every transport invocation so that
  "the transport was not called" is expressible.
-/

namespace TransmissionRpc

/-! ## The `compact` helper (torrent_mutators.go lines 24-41) -/

variable {α : Type _} [DecidableEq α]

/-- Inner loop of Go `compact` (lines 30-36).  `A` is the backing array,
`k0` the index where the first duplicate was found (`s2 := s[k:]` aliases
the backing array from `k0` on, so `s2[k2]` reads the backing array at
`k0 + k2`), `k` the write cursor and `k2` the read cursor.  The Go condition
`s2[k2] != s2[k2-1]` compares two in-range elements; it is rendered on
`Option`-valued reads, which agree on in-range indices. -/
def innerLoop (A : List α) (k0 k k2 : Nat) : List α × Nat :=
  if h : k0 + k2 < A.length then
    if some (A[k0 + k2]) = A[k0 + k2 - 1]? then
      innerLoop A k0 k (k2 + 1)
    else
      innerLoop (A.set k (A[k0 + k2])) k0 (k + 1) (k2 + 1)
  else
    (A, k)
termination_by A.length - k2
decreasing_by
  · omega
  · simp only [List.length_set]
    omega

/-- Outer scan of Go `compact` (line 28): the first index `k ≥ 1` (if any)
with `s[k] == s[k-1]`. -/
def findDup (s : List α) (k : Nat) : Option Nat :=
  if h : k < s.length then
    if s[k]? = s[k - 1]? then some k else findDup s (k + 1)
  else
    none
termination_by s.length - k
decreasing_by omega

/-- Go `compact` (lines 24-41): the value of the slice the function returns
(`s` unchanged when no adjacent duplicate exists or `len(s) < 2`, otherwise
the prefix `s[:k]` of the mutated backing array). -/
def compact (s : List α) : List α :=
  if s.length < 2 then s
  else
    match findDup s 1 with
    | none => s
    | some k0 => ((innerLoop s k0 k0 1).1).take (innerLoop s k0 k0 1).2

/-- The whole backing array of `s` after Go `compact` ran on it.  The caller's
original slice header keeps its length and still views this array, so this is
what a caller aliasing `s` observes after the call. -/
def compactBacking (s : List α) : List α :=
  if s.length < 2 then s
  else
    match findDup s 1 with
    | none => s
    | some k0 => (innerLoop s k0 k0 1).1

/-! ## Specification-side description of the normalizer (spec §4.1) -/

/-- Modelled from the spec, §4.1: tail of the left-to-right scan.  `prev` is
the immediate predecessor of the head of `l` in the original sequence; an
element equal to its immediate predecessor is removed, every other element is
retained. -/
def dedupAux (prev : α) : List α → List α
  | [] => []
  | b :: l => if b = prev then dedupAux b l else b :: dedupAux b l

/-- Modelled from the spec, §4.1: "produce the subsequence obtained by
scanning left to right and removing any element equal to its immediate
predecessor, preserving the order and identity of all retained elements". -/
def dedupAdj : List α → List α
  | [] => []
  | a :: l => a :: dedupAux a l

/-! ## Go's `sort.Strings` (line 50).  An in-place sort of a string slice is
extensionally the sorted permutation of its input, which is unique, so any
sorting algorithm is a faithful model of its result. -/

def sortStrings (l : List String) : List String :=
  List.insertionSort (fun a b => a ≤ b) l

/-! ## The request payload (torrent_mutators.go lines 59-83) -/

/-- Go `float64` treated as an uninterpreted IEEE-754 bit pattern: the encoder
copies the value verbatim and never computes with it. -/
structure Float64 where
  bits : Nat
  deriving DecidableEq, Repr

/-- The repository's `SeedRatioMode` type (an enumerated integer defined
outside this file); the encoder copies the value verbatim. -/
structure SeedRatioMode where
  val : Int
  deriving DecidableEq, Repr

/-- `TorrentSetPayload` (lines 60-83).  Go pointer fields and Go slice fields
are `Option`s: `none` is a nil pointer / nil slice, `some` a set value; a
`some []` list is a non-nil empty slice.  `SeedIdleLimit` is a `time.Duration`,
an `int64` count of nanoseconds. -/
structure TorrentSetPayload where
  BandwidthPriority : Option Int := none
  DownloadLimit : Option Int := none
  DownloadLimited : Option Bool := none
  FilesWanted : Option (List Int) := none
  FilesUnwanted : Option (List Int) := none
  Group : Option String := none
  HonorsSessionLimits : Option Bool := none
  IDs : Option (List Int) := none
  Labels : Option (List String) := none
  Location : Option String := none
  PeerLimit : Option Int := none
  PriorityHigh : Option (List Int) := none
  PriorityLow : Option (List Int) := none
  PriorityNormal : Option (List Int) := none
  QueuePosition : Option Int := none
  SeedIdleLimit : Option Int := none
  SeedIdleMode : Option Int := none
  SeedRatioLimit : Option Float64 := none
  SeedRatioMode : Option TransmissionRpc.SeedRatioMode := none
  TrackerList : Option (List String) := none
  UploadLimit : Option Int := none
  UploadLimited : Option Bool := none
  deriving DecidableEq, Repr

/-- JSON-representable values appearing in the wire mapping.  The `float` and
`mode` carriers keep their Go values verbatim. -/
inductive JVal where
  | num (n : Int)
  | bool (b : Bool)
  | str (s : String)
  | float (x : Float64)
  | mode (m : TransmissionRpc.SeedRatioMode)
  | listInt (l : List Int)
  | listStr (l : List String)
  deriving DecidableEq, Repr

/-- `time.Minute` in nanoseconds. -/
def minuteNs : Int := 60000000000

/-- Go duration division `d / time.Minute` on `int64` truncates toward zero. -/
def durMinutes (d : Int) : Int := Int.tdiv d minuteNs

/-- One entry of the reflection walk (lines 113-135): a key appears exactly
when the field is non-nil. -/
def optEntry {γ : Type _} (key : String) (f : γ → JVal) : Option γ → List (String × JVal)
  | none => []
  | some a => [(key, f a)]

/-- `TorrentSetPayload.MarshalJSON` (lines 88-137).  The reflected struct
`tmp` is walked field by field: first the two overloaded fields
(`seedIdleLimit`, converted to whole minutes, and `trackerList`, joined by
line breaks), then the embedded base struct's fields in declaration order,
skipping the two `json:"-"` fields; each non-nil field contributes its tag
name and value to `cleanPayload`.  Keys are pairwise distinct, so this
association list in walk order is a faithful model of the resulting
`map[string]interface{}`. -/
def marshalJSON (tsp : TorrentSetPayload) : List (String × JVal) :=
  optEntry "seedIdleLimit" (fun d => JVal.num (durMinutes d)) tsp.SeedIdleLimit
    ++ optEntry "trackerList" (fun l => JVal.str (String.intercalate "\n" l)) tsp.TrackerList
    ++ optEntry "bandwidthPriority" JVal.num tsp.BandwidthPriority
    ++ optEntry "downloadLimit" JVal.num tsp.DownloadLimit
    ++ optEntry "downloadLimited" JVal.bool tsp.DownloadLimited
    ++ optEntry "files-wanted" JVal.listInt tsp.FilesWanted
    ++ optEntry "files-unwanted" JVal.listInt tsp.FilesUnwanted
    ++ optEntry "group" JVal.str tsp.Group
    ++ optEntry "honorsSessionLimits" JVal.bool tsp.HonorsSessionLimits
    ++ optEntry "ids" JVal.listInt tsp.IDs
    ++ optEntry "labels" JVal.listStr tsp.Labels
    ++ optEntry "location" JVal.str tsp.Location
    ++ optEntry "peer-limit" JVal.num tsp.PeerLimit
    ++ optEntry "priority-high" JVal.listInt tsp.PriorityHigh
    ++ optEntry "priority-low" JVal.listInt tsp.PriorityLow
    ++ optEntry "priority-normal" JVal.listInt tsp.PriorityNormal
    ++ optEntry "queuePosition" JVal.num tsp.QueuePosition
    ++ optEntry "seedIdleMode" JVal.num tsp.SeedIdleMode
    ++ optEntry "seedRatioLimit" JVal.float tsp.SeedRatioLimit
    ++ optEntry "seedRatioMode" JVal.mode tsp.SeedRatioMode
    ++ optEntry "uploadLimit" JVal.num tsp.UploadLimit
    ++ optEntry "uploadLimited" JVal.bool tsp.UploadLimited

/-! ## `TorrentSet` (lines 44-57) -/

/-- Go errors, as far as this fragment builds them: `errors.New` gives a
leaf message, `fmt.Errorf("...: %w", err)` wraps an inner error under a
context string. -/
inductive GoError where
  | simple (msg : String)
  | wrapped (ctx : String) (inner : GoError)
  deriving DecidableEq, Repr

/-- Go `len` on a possibly-nil slice: nil has length 0. -/
def goLen {γ : Type _} : Option (List γ) → Nat
  | none => 0
  | some l => l.length

/-- Lines 50-51: `sort.Strings(payload.TrackerList)` followed by
`payload.TrackerList = compact(payload.TrackerList)`, acting on the local
copy of the payload (a nil tracker list stays nil: sorting and compacting a
nil slice leave it nil). -/
def fixTrackers (payload : TorrentSetPayload) : TorrentSetPayload :=
  { payload with TrackerList := payload.TrackerList.map (fun l => compact (sortStrings l)) }

/-- The contents of the caller's tracker-list slice after lines 50-51 ran:
the sort and the compact write through the shared backing array, and the
caller's slice header keeps the original length. -/
def callerTrackers (payload : TorrentSetPayload) : Option (List String) :=
  payload.TrackerList.map (fun l => compactBacking (sortStrings l))

/-- Observable outcome of one `TorrentSet` call: the returned error, the
transport invocations it made (method name and marshalled body), and what
the caller's original tracker-list slice views afterwards. -/
structure TorrentSetResult where
  err : Option GoError
  calls : List (String × List (String × JVal))
  callerTrackerList : Option (List String)
  deriving DecidableEq, Repr

/-- `Client.TorrentSet` (lines 44-57), with the transport collaborator
`c.rpcCall` abstracted as the function argument `rpcCall`. -/
def TorrentSet (rpcCall : String → List (String × JVal) → Option GoError)
    (payload : TorrentSetPayload) : TorrentSetResult :=
  if goLen payload.IDs = 0 then
    ⟨some (GoError.simple "there must be at least one ID"), [], payload.TrackerList⟩
  else
    match rpcCall "torrent-set" (marshalJSON (fixTrackers payload)) with
    | some e =>
      ⟨some (GoError.wrapped "'torrent-set' rpc method failed" e),
        [("torrent-set", marshalJSON (fixTrackers payload))], callerTrackers payload⟩
    | none =>
      ⟨none, [("torrent-set", marshalJSON (fixTrackers payload))], callerTrackers payload⟩

/-- A payload with every attribute unset except the identifier list. -/
def idsOnly (ids : List Int) : TorrentSetPayload :=
  { IDs := some ids }

/-! ## List helpers about `set`, `take` and `drop` -/

theorem take_succ_set_self (l : List α) (k : Nat) (v : α) (h : k < l.length) :
    (l.set k v).take (k + 1) = l.take k ++ [v] := by
  rw [List.set_eq_take_append_cons_drop, if_pos h, List.take_append_eq_append_take]
  have hlen : (l.take k).length = k := by
    simp [List.length_take]
    omega
  rw [hlen, List.take_take]
  have hmin : min (k + 1) k = k := by omega
  rw [hmin]
  have h1 : k + 1 - k = 1 := by omega
  rw [h1]
  rfl

theorem drop_set_of_lt' (l : List α) (k j : Nat) (v : α) (h : k < j) :
    (l.set k v).drop j = l.drop j := by
  by_cases hk : k < l.length
  · rw [List.set_eq_take_append_cons_drop, if_pos hk, List.drop_append_eq_append_drop]
    have hlen : (l.take k).length = k := by
      simp [List.length_take]
      omega
    rw [hlen, List.drop_eq_nil_of_le (by rw [hlen]; omega), List.nil_append]
    have h1 : j - k = (j - k - 1) + 1 := by omega
    rw [h1, List.drop_succ_cons, List.drop_drop]
    congr 1
    omega
  · rw [List.set_eq_take_append_cons_drop, if_neg hk]

/-! ## What the inner loop computes -/

/-- Characterization of `innerLoop`: provided the write cursor trails the read
cursor (`k < k0 + k2`) and `v0` is the element just before the read cursor,
the loop writes exactly the retained elements of the spec's scan after the
prefix `A.take k`, never touches the array at or beyond the final write
cursor, and preserves the length. -/
theorem innerLoop_spec (A : List α) (k0 k k2 : Nat) (v0 : α)
    (hk : k < k0 + k2) (hprev : A[k0 + k2 - 1]? = some v0) :
    (innerLoop A k0 k k2).2 = k + (dedupAux v0 (A.drop (k0 + k2))).length ∧
    (innerLoop A k0 k k2).1.take (innerLoop A k0 k k2).2
      = A.take k ++ dedupAux v0 (A.drop (k0 + k2)) ∧
    (innerLoop A k0 k k2).1.drop (innerLoop A k0 k k2).2
      = A.drop (innerLoop A k0 k k2).2 ∧
    (innerLoop A k0 k k2).1.length = A.length := by
  rw [innerLoop]
  by_cases h : k0 + k2 < A.length
  · rw [dif_pos h]
    have hdrop : A.drop (k0 + k2) = A[k0 + k2] :: A.drop (k0 + k2 + 1) :=
      List.drop_eq_getElem_cons h
    by_cases heq : some (A[k0 + k2]) = A[k0 + k2 - 1]?
    · rw [if_pos heq]
      have hv : A[k0 + k2] = v0 := by
        rw [hprev] at heq
        exact Option.some.inj heq
      have hprev' : A[k0 + (k2 + 1) - 1]? = some (A[k0 + k2]) := by
        have h1 : k0 + (k2 + 1) - 1 = k0 + k2 := by omega
        rw [h1, List.getElem?_eq_getElem h]
      have ih := innerLoop_spec A k0 k (k2 + 1) (A[k0 + k2]) (by omega) hprev'
      have harith : k0 + (k2 + 1) = k0 + k2 + 1 := by omega
      rw [harith] at ih
      have hded : dedupAux v0 (A.drop (k0 + k2))
          = dedupAux (A[k0 + k2]) (A.drop (k0 + k2 + 1)) := by
        rw [hdrop]
        simp only [dedupAux]
        rw [if_pos hv]
      rw [hded]
      exact ih
    · rw [if_neg heq]
      have hx : ¬ (A[k0 + k2] = v0) := fun hxv => heq (by rw [hprev, hxv])
      have hklen : k < A.length := by omega
      have hprev' : (A.set k (A[k0 + k2]))[k0 + (k2 + 1) - 1]? = some (A[k0 + k2]) := by
        have h1 : k0 + (k2 + 1) - 1 = k0 + k2 := by omega
        rw [h1, List.getElem?_set_ne (by omega : k ≠ k0 + k2), List.getElem?_eq_getElem h]
      have ih := innerLoop_spec (A.set k (A[k0 + k2])) k0 (k + 1) (k2 + 1)
        (A[k0 + k2]) (by omega) hprev'
      have harith : k0 + (k2 + 1) = k0 + k2 + 1 := by omega
      rw [harith] at ih
      rw [drop_set_of_lt' A k (k0 + k2 + 1) _ (by omega)] at ih
      obtain ⟨ih1, ih2, ih3, ih4⟩ := ih
      rw [take_succ_set_self A k _ hklen] at ih2
      rw [List.length_set] at ih4
      have hded : dedupAux v0 (A.drop (k0 + k2))
          = A[k0 + k2] :: dedupAux (A[k0 + k2]) (A.drop (k0 + k2 + 1)) := by
        rw [hdrop]
        simp only [dedupAux]
        rw [if_neg hx]
      refine ⟨?_, ?_, ?_, ih4⟩
      · rw [ih1, hded]
        simp [List.length_cons]
        omega
      · rw [ih2, hded, List.append_assoc, List.singleton_append]
      · rw [ih3]
        have hk2 : k < (innerLoop (A.set k (A[k0 + k2])) k0 (k + 1) (k2 + 1)).2 := by
          rw [ih1]
          omega
        exact drop_set_of_lt' A k _ _ hk2
  · rw [dif_neg h]
    have hnil : A.drop (k0 + k2) = [] := List.drop_eq_nil_of_le (by omega)
    rw [hnil]
    simp [dedupAux]
termination_by A.length - k2
decreasing_by
  · omega
  · simp only [List.length_set]
    omega

/-! ## What the outer scan computes -/

theorem findDup_none_spec (s : List α) (k : Nat) (h : findDup s k = none) :
    ∀ i, k ≤ i → i < s.length → ¬ s[i]? = s[i - 1]? := by
  intro i hki hilen
  rw [findDup] at h
  by_cases hk : k < s.length
  · rw [dif_pos hk] at h
    by_cases he : s[k]? = s[k - 1]?
    · rw [if_pos he] at h
      exact absurd h (by simp)
    · rw [if_neg he] at h
      by_cases hik : i = k
      · rw [hik]
        exact he
      · exact findDup_none_spec s (k + 1) h i (by omega) hilen
  · exact absurd hilen (by omega)
termination_by s.length - k
decreasing_by omega

theorem findDup_some_spec (s : List α) (k k0 : Nat) (h : findDup s k = some k0) :
    k ≤ k0 ∧ k0 < s.length ∧ s[k0]? = s[k0 - 1]? ∧
      ∀ i, k ≤ i → i < k0 → ¬ s[i]? = s[i - 1]? := by
  rw [findDup] at h
  by_cases hk : k < s.length
  · rw [dif_pos hk] at h
    by_cases he : s[k]? = s[k - 1]?
    · rw [if_pos he] at h
      have hkk0 : k = k0 := Option.some.inj h
      subst hkk0
      exact ⟨le_refl _, hk, he, fun i h1 h2 => absurd h2 (by omega)⟩
    · rw [if_neg he] at h
      obtain ⟨h1, h2, h3, h4⟩ := findDup_some_spec s (k + 1) k0 h
      refine ⟨by omega, h2, h3, ?_⟩
      intro i hki hik0
      by_cases hik : i = k
      · rw [hik]
        exact he
      · exact h4 i (by omega) hik0
  · rw [dif_neg hk] at h
    exact absurd h (by simp)
termination_by s.length - k
decreasing_by omega

/-! ## Lemmas about the spec-side scan -/

theorem dedupAux_eq_self_of_idx (prev : α) (l : List α)
    (h : ∀ i, i < l.length → ¬ l[i]? = (prev :: l)[i]?) : dedupAux prev l = l := by
  induction l generalizing prev with
  | nil => rfl
  | cons b t ih =>
    have hb : ¬ (b = prev) := by
      have h0 := h 0 (by simp)
      simpa using h0
    simp only [dedupAux]
    rw [if_neg hb]
    congr 1
    apply ih
    intro i hi
    have hs := h (i + 1) (by simpa using Nat.succ_lt_succ hi)
    rwa [List.getElem?_cons_succ, List.getElem?_cons_succ] at hs

theorem dedupAdj_eq_self_of_idx (s : List α)
    (h : ∀ i, 1 ≤ i → i < s.length → ¬ s[i]? = s[i - 1]?) : dedupAdj s = s := by
  cases s with
  | nil => rfl
  | cons a t =>
    simp only [dedupAdj]
    congr 1
    apply dedupAux_eq_self_of_idx
    intro i hi
    have hs := h (i + 1) (by omega) (by simp only [List.length_cons]; omega)
    have h2 : i + 1 - 1 = i := by omega
    rw [h2, List.getElem?_cons_succ] at hs
    exact hs

theorem dedupAux_idx_split (l : List α) (prev v : α) (k0 : Nat)
    (hlen : k0 < l.length) (hv : l[k0]? = some v)
    (hdup : l[k0]? = (prev :: l)[k0]?)
    (hpre : ∀ i, i < k0 → ¬ l[i]? = (prev :: l)[i]?) :
    dedupAux prev l = l.take k0 ++ dedupAux v (l.drop (k0 + 1)) := by
  induction l generalizing prev k0 with
  | nil => exact absurd hlen (by simp)
  | cons b t ih =>
    cases k0 with
    | zero =>
      have hbprev : b = prev := by simpa using hdup
      have hvb : v = b := by
        have := hv
        simp at this
        exact this.symm
      simp only [dedupAux]
      rw [if_pos hbprev, hvb]
      simp
    | succ j =>
      have hbprev : ¬ (b = prev) := by
        have h0 := hpre 0 (by omega)
        simpa using h0
      simp only [dedupAux]
      rw [if_neg hbprev]
      have ht := ih b j (by simpa using hlen) (by simpa using hv)
        (by
          have := hdup
          rwa [List.getElem?_cons_succ, List.getElem?_cons_succ] at this)
        (by
          intro i hij
          have := hpre (i + 1) (by omega)
          rwa [List.getElem?_cons_succ, List.getElem?_cons_succ] at this)
      rw [ht]
      simp only [List.take_cons, List.drop_succ_cons]
      rfl

theorem dedupAdj_split (s : List α) (v : α) (k0 : Nat)
    (hk1 : 1 ≤ k0) (hlen : k0 < s.length)
    (hdup : s[k0]? = s[k0 - 1]?) (hv : s[k0]? = some v)
    (hpre : ∀ i, 1 ≤ i → i < k0 → ¬ s[i]? = s[i - 1]?) :
    dedupAdj s = s.take k0 ++ dedupAux v (s.drop (k0 + 1)) := by
  cases s with
  | nil => exact absurd hlen (by simp)
  | cons a t =>
    obtain ⟨j, hj⟩ : ∃ j, k0 = j + 1 := ⟨k0 - 1, by omega⟩
    subst hj
    simp only [dedupAdj]
    have ht := dedupAux_idx_split t a v j (by simpa using hlen)
      (by simpa using hv)
      (by
        have := hdup
        rw [List.getElem?_cons_succ] at this
        have h2 : j + 1 - 1 = j := by omega
        rwa [h2] at this)
      (by
        intro i hij
        have := hpre (i + 1) (by omega) (by omega)
        have h2 : i + 1 - 1 = i := by omega
        rw [h2, List.getElem?_cons_succ] at this
        exact this)
    rw [ht]
    simp only [List.take_cons, List.drop_succ_cons]
    rfl

/-! ## `compact` agrees with the spec's scan -/

theorem compact_eq_dedupAdj (s : List α) : compact s = dedupAdj s := by
  rw [compact]
  by_cases hlen : s.length < 2
  · rw [if_pos hlen]
    cases s with
    | nil => rfl
    | cons a t =>
      cases t with
      | nil => rfl
      | cons b t' => exact absurd hlen (by simp)
  · rw [if_neg hlen]
    cases hfd : findDup s 1 with
    | none =>
      exact (dedupAdj_eq_self_of_idx s (findDup_none_spec s 1 hfd)).symm
    | some k0 =>
      obtain ⟨hk1, hk0len, hdup, hpre⟩ := findDup_some_spec s 1 k0 hfd
      obtain ⟨v, hv⟩ : ∃ v, s[k0]? = some v := ⟨_, List.getElem?_eq_getElem hk0len⟩
      have hprev : s[k0 + 1 - 1]? = some v := by simpa using hv
      obtain ⟨h1, h2, h3, h4⟩ := innerLoop_spec s k0 k0 1 v (by omega) hprev
      show ((innerLoop s k0 k0 1).1).take (innerLoop s k0 k0 1).2 = dedupAdj s
      rw [h2]
      exact (dedupAdj_split s v k0 hk1 hk0len hdup hv hpre).symm

theorem compactBacking_eq (s : List α) :
    compactBacking s = dedupAdj s ++ s.drop ((dedupAdj s).length) := by
  rw [compactBacking]
  by_cases hlen : s.length < 2
  · rw [if_pos hlen]
    have hds : dedupAdj s = s := by
      cases s with
      | nil => rfl
      | cons a t =>
        cases t with
        | nil => rfl
        | cons b t' => exact absurd hlen (by simp)
    rw [hds, List.drop_length, List.append_nil]
  · rw [if_neg hlen]
    cases hfd : findDup s 1 with
    | none =>
      rw [dedupAdj_eq_self_of_idx s (findDup_none_spec s 1 hfd), List.drop_length,
        List.append_nil]
    | some k0 =>
      obtain ⟨hk1, hk0len, hdup, hpre⟩ := findDup_some_spec s 1 k0 hfd
      obtain ⟨v, hv⟩ : ∃ v, s[k0]? = some v := ⟨_, List.getElem?_eq_getElem hk0len⟩
      have hprev : s[k0 + 1 - 1]? = some v := by simpa using hv
      obtain ⟨h1, h2, h3, h4⟩ := innerLoop_spec s k0 k0 1 v (by omega) hprev
      have hsplit := dedupAdj_split s v k0 hk1 hk0len hdup hv hpre
      have hlend : (dedupAdj s).length = (innerLoop s k0 k0 1).2 := by
        rw [hsplit, h1, List.length_append, List.length_take]
        have : min k0 s.length = k0 := by omega
        rw [this]
      calc (innerLoop s k0 k0 1).1
          = (innerLoop s k0 k0 1).1.take (innerLoop s k0 k0 1).2
            ++ (innerLoop s k0 k0 1).1.drop (innerLoop s k0 k0 1).2 :=
            (List.take_append_drop _ _).symm
        _ = (s.take k0 ++ dedupAux v (s.drop (k0 + 1)))
            ++ s.drop (innerLoop s k0 k0 1).2 := by rw [h2, h3]
        _ = dedupAdj s ++ s.drop ((dedupAdj s).length) := by rw [hlend, hsplit]

theorem compactBacking_length (s : List α) : (compactBacking s).length = s.length := by
  rw [compactBacking]
  by_cases hlen : s.length < 2
  · rw [if_pos hlen]
  · rw [if_neg hlen]
    cases hfd : findDup s 1 with
    | none => rfl
    | some k0 =>
      obtain ⟨hk1, hk0len, hdup, hpre⟩ := findDup_some_spec s 1 k0 hfd
      obtain ⟨v, hv⟩ : ∃ v, s[k0]? = some v := ⟨_, List.getElem?_eq_getElem hk0len⟩
      have hprev : s[k0 + 1 - 1]? = some v := by simpa using hv
      exact (innerLoop_spec s k0 k0 1 v (by omega) hprev).2.2.2

/-! ## Structural properties of the spec-side scan -/

theorem dedupAux_sublist (prev : α) (l : List α) : List.Sublist (dedupAux prev l) l := by
  induction l generalizing prev with
  | nil => simp [dedupAux]
  | cons b t ih =>
    simp only [dedupAux]
    by_cases hb : b = prev
    · rw [if_pos hb]
      exact (ih b).cons b
    · rw [if_neg hb]
      exact (ih b).cons₂ b

theorem dedupAdj_sublist (l : List α) : List.Sublist (dedupAdj l) l := by
  cases l with
  | nil => simp [dedupAdj]
  | cons a t => exact (dedupAux_sublist a t).cons₂ a

theorem chain_ne_dedupAux (prev : α) (l : List α) :
    List.Chain (fun a b => ¬ a = b) prev (dedupAux prev l) := by
  induction l generalizing prev with
  | nil => exact List.Chain.nil
  | cons b t ih =>
    simp only [dedupAux]
    by_cases hb : b = prev
    · rw [if_pos hb, ← hb]
      exact ih b
    · rw [if_neg hb]
      exact List.Chain.cons (fun h => hb h.symm) (ih b)

theorem chain'_ne_dedupAdj (l : List α) :
    List.Chain' (fun a b => ¬ a = b) (dedupAdj l) := by
  cases l with
  | nil => simp [dedupAdj]
  | cons a t => exact chain_ne_dedupAux a t

theorem dedupAux_eq_self_of_chain (prev : α) (l : List α)
    (h : List.Chain (fun a b => ¬ a = b) prev l) : dedupAux prev l = l := by
  induction l generalizing prev with
  | nil => rfl
  | cons b t ih =>
    rw [List.chain_cons] at h
    simp only [dedupAux]
    rw [if_neg (fun hb => h.1 hb.symm), ih b h.2]

theorem dedupAdj_eq_self_of_chain' (l : List α)
    (h : List.Chain' (fun a b => ¬ a = b) l) : dedupAdj l = l := by
  cases l with
  | nil => rfl
  | cons a t =>
    simp only [dedupAdj]
    rw [dedupAux_eq_self_of_chain a t h]

theorem dedupAdj_idem (l : List α) : dedupAdj (dedupAdj l) = dedupAdj l :=
  dedupAdj_eq_self_of_chain' _ (chain'_ne_dedupAdj l)

theorem mem_cons_dedupAux (prev : α) (l : List α) (x : α) :
    x ∈ prev :: dedupAux prev l ↔ x ∈ prev :: l := by
  induction l generalizing prev with
  | nil => exact Iff.rfl
  | cons b t ih =>
    simp only [dedupAux]
    by_cases hb : b = prev
    · rw [if_pos hb]
      subst hb
      rw [ih b]
      simp only [List.mem_cons]
      tauto
    · rw [if_neg hb]
      have hbt := ih b
      simp only [List.mem_cons] at hbt ⊢
      tauto

theorem mem_dedupAdj (l : List α) (x : α) : x ∈ dedupAdj l ↔ x ∈ l := by
  cases l with
  | nil => exact Iff.rfl
  | cons a t => exact mem_cons_dedupAux a t x

/-! ## Order-related properties (the caller sorts before deduplicating) -/

theorem chain'_lt_of_le_ne {β : Type _} [LinearOrder β] (l : List β)
    (h1 : List.Chain' (fun a b => a ≤ b) l)
    (h2 : List.Chain' (fun a b => ¬ a = b) l) :
    List.Chain' (fun a b => a < b) l := by
  induction l with
  | nil => simp
  | cons a t ih =>
    cases t with
    | nil => simp
    | cons b t' =>
      rw [List.chain'_cons] at h1 h2 ⊢
      exact ⟨lt_of_le_of_ne h1.1 h2.1, ih h1.2 h2.2⟩

theorem sorted_lt_dedupAdj {β : Type _} [DecidableEq β] [LinearOrder β] (l : List β)
    (h : List.Sorted (fun a b => a ≤ b) l) :
    List.Sorted (fun a b => a < b) (dedupAdj l) := by
  have hle : List.Pairwise (fun a b => a ≤ b) (dedupAdj l) := h.sublist (dedupAdj_sublist l)
  have hlt := chain'_lt_of_le_ne _ hle.chain' (chain'_ne_dedupAdj l)
  exact List.chain'_iff_pairwise.mp hlt

theorem nodup_dedupAdj_of_sorted {β : Type _} [DecidableEq β] [LinearOrder β] (l : List β)
    (h : List.Sorted (fun a b => a ≤ b) l) : (dedupAdj l).Nodup :=
  (sorted_lt_dedupAdj l h).imp (fun hab => ne_of_lt hab)

/-- Two sorted lists with the same members deduplicate to the same list. -/
theorem dedupAdj_sorted_ext {β : Type _} [DecidableEq β] [LinearOrder β] (l₁ l₂ : List β)
    (hs₁ : List.Sorted (fun a b => a ≤ b) l₁)
    (hs₂ : List.Sorted (fun a b => a ≤ b) l₂)
    (hmem : ∀ x, x ∈ l₁ ↔ x ∈ l₂) :
    dedupAdj l₁ = dedupAdj l₂ := by
  have hperm : (dedupAdj l₁).Perm (dedupAdj l₂) := by
    apply (List.perm_ext_iff_of_nodup (nodup_dedupAdj_of_sorted l₁ hs₁)
      (nodup_dedupAdj_of_sorted l₂ hs₂)).mpr
    intro a
    rw [mem_dedupAdj, mem_dedupAdj]
    exact hmem a
  haveI : IsAntisymm β (fun a b => a ≤ b) := ⟨fun a b h1 h2 => le_antisymm h1 h2⟩
  exact List.eq_of_perm_of_sorted hperm (hs₁.sublist (dedupAdj_sublist l₁))
    (hs₂.sublist (dedupAdj_sublist l₂))

theorem sorted_sortStrings (l : List String) :
    List.Sorted (fun a b => a ≤ b) (sortStrings l) :=
  List.sorted_insertionSort _ l

theorem perm_sortStrings (l : List String) : (sortStrings l).Perm l :=
  List.perm_insertionSort _ l

/-- Normalization (sort, then adjacent-dedup) only depends on the set of
entries: lists equal up to order and multiplicity normalize identically. -/
theorem compact_sortStrings_ext (l₁ l₂ : List String)
    (hmem : ∀ x, x ∈ l₁ ↔ x ∈ l₂) :
    compact (sortStrings l₁) = compact (sortStrings l₂) := by
  rw [compact_eq_dedupAdj, compact_eq_dedupAdj]
  apply dedupAdj_sorted_ext _ _ (sorted_sortStrings l₁) (sorted_sortStrings l₂)
  intro x
  rw [(perm_sortStrings l₁).mem_iff, (perm_sortStrings l₂).mem_iff]
  exact hmem x

/-! ## Encoder lemmas -/

theorem mem_optEntry {γ : Type _} (key : String) (f : γ → JVal) (o : Option γ)
    (k : String) (v : JVal) :
    (k, v) ∈ optEntry key f o ↔ k = key ∧ ∃ a, o = some a ∧ v = f a := by
  cases o with
  | none => simp [optEntry]
  | some a => simp [optEntry]

theorem mem_optEntry_key {γ : Type _} {key : String} {f : γ → JVal} {o : Option γ}
    {k : String} {v : JVal} (h : (k, v) ∈ optEntry key f o) : k = key :=
  ((mem_optEntry key f o k v).mp h).1

example (p : TorrentSetPayload) (v : JVal) :
    ("downloadLimit", v) ∈ marshalJSON p ↔ ∃ n, p.DownloadLimit = some n ∧ v = JVal.num n := by
  simp [marshalJSON, mem_optEntry]

/-! ## Claim C1 : the wire mapping holds exactly the set attributes -/

set_option maxHeartbeats 1600000 in
/-- Claim C1: for every payload, the wire mapping produced by the encoder
contains exactly the set (non-nil) attributes under their designated wire
keys — for each attribute, a key/value pair is in the mapping exactly when
the attribute is set and the value is the attribute's (transformed) value;
every key of the mapping is one of the designated wire keys; a zero-valued
set attribute (integer 0, boolean false) still appears; and a payload with
everything unset except the identifier list encodes to exactly one key. -/
theorem claim1_wire_mapping_exact (p : TorrentSetPayload) :
    (∀ v, ("seedIdleLimit", v) ∈ marshalJSON p
        ↔ ∃ d, p.SeedIdleLimit = some d ∧ v = JVal.num (durMinutes d)) ∧
    (∀ v, ("trackerList", v) ∈ marshalJSON p
        ↔ ∃ l, p.TrackerList = some l ∧ v = JVal.str (String.intercalate "\n" l)) ∧
    (∀ v, ("bandwidthPriority", v) ∈ marshalJSON p
        ↔ ∃ n, p.BandwidthPriority = some n ∧ v = JVal.num n) ∧
    (∀ v, ("downloadLimit", v) ∈ marshalJSON p
        ↔ ∃ n, p.DownloadLimit = some n ∧ v = JVal.num n) ∧
    (∀ v, ("downloadLimited", v) ∈ marshalJSON p
        ↔ ∃ b, p.DownloadLimited = some b ∧ v = JVal.bool b) ∧
    (∀ v, ("files-wanted", v) ∈ marshalJSON p
        ↔ ∃ l, p.FilesWanted = some l ∧ v = JVal.listInt l) ∧
    (∀ v, ("files-unwanted", v) ∈ marshalJSON p
        ↔ ∃ l, p.FilesUnwanted = some l ∧ v = JVal.listInt l) ∧
    (∀ v, ("group", v) ∈ marshalJSON p
        ↔ ∃ s, p.Group = some s ∧ v = JVal.str s) ∧
    (∀ v, ("honorsSessionLimits", v) ∈ marshalJSON p
        ↔ ∃ b, p.HonorsSessionLimits = some b ∧ v = JVal.bool b) ∧
    (∀ v, ("ids", v) ∈ marshalJSON p
        ↔ ∃ l, p.IDs = some l ∧ v = JVal.listInt l) ∧
    (∀ v, ("labels", v) ∈ marshalJSON p
        ↔ ∃ l, p.Labels = some l ∧ v = JVal.listStr l) ∧
    (∀ v, ("location", v) ∈ marshalJSON p
        ↔ ∃ s, p.Location = some s ∧ v = JVal.str s) ∧
    (∀ v, ("peer-limit", v) ∈ marshalJSON p
        ↔ ∃ n, p.PeerLimit = some n ∧ v = JVal.num n) ∧
    (∀ v, ("priority-high", v) ∈ marshalJSON p
        ↔ ∃ l, p.PriorityHigh = some l ∧ v = JVal.listInt l) ∧
    (∀ v, ("priority-low", v) ∈ marshalJSON p
        ↔ ∃ l, p.PriorityLow = some l ∧ v = JVal.listInt l) ∧
    (∀ v, ("priority-normal", v) ∈ marshalJSON p
        ↔ ∃ l, p.PriorityNormal = some l ∧ v = JVal.listInt l) ∧
    (∀ v, ("queuePosition", v) ∈ marshalJSON p
        ↔ ∃ n, p.QueuePosition = some n ∧ v = JVal.num n) ∧
    (∀ v, ("seedIdleMode", v) ∈ marshalJSON p
        ↔ ∃ n, p.SeedIdleMode = some n ∧ v = JVal.num n) ∧
    (∀ v, ("seedRatioLimit", v) ∈ marshalJSON p
        ↔ ∃ x, p.SeedRatioLimit = some x ∧ v = JVal.float x) ∧
    (∀ v, ("seedRatioMode", v) ∈ marshalJSON p
        ↔ ∃ m, p.SeedRatioMode = some m ∧ v = JVal.mode m) ∧
    (∀ v, ("uploadLimit", v) ∈ marshalJSON p
        ↔ ∃ n, p.UploadLimit = some n ∧ v = JVal.num n) ∧
    (∀ v, ("uploadLimited", v) ∈ marshalJSON p
        ↔ ∃ b, p.UploadLimited = some b ∧ v = JVal.bool b) ∧
    (∀ k v, (k, v) ∈ marshalJSON p →
        k ∈ ["seedIdleLimit", "trackerList", "bandwidthPriority", "downloadLimit",
          "downloadLimited", "files-wanted", "files-unwanted", "group",
          "honorsSessionLimits", "ids", "labels", "location", "peer-limit",
          "priority-high", "priority-low", "priority-normal", "queuePosition",
          "seedIdleMode", "seedRatioLimit", "seedRatioMode", "uploadLimit",
          "uploadLimited"]) ∧
    (p.DownloadLimit = some 0 → ("downloadLimit", JVal.num 0) ∈ marshalJSON p) ∧
    (p.DownloadLimited = some false →
        ("downloadLimited", JVal.bool false) ∈ marshalJSON p) ∧
    (∀ ids, marshalJSON (idsOnly ids) = [("ids", JVal.listInt ids)]) := by
  refine ⟨?_, ?_, ?_, ?_, ?_, ?_, ?_, ?_, ?_, ?_, ?_, ?_, ?_, ?_, ?_, ?_, ?_, ?_, ?_,
    ?_, ?_, ?_, ?_, ?_, ?_, ?_⟩
  case _ => intro v; simp [marshalJSON, mem_optEntry]
  case _ => intro v; simp [marshalJSON, mem_optEntry]
  case _ => intro v; simp [marshalJSON, mem_optEntry]
  case _ => intro v; simp [marshalJSON, mem_optEntry]
  case _ => intro v; simp [marshalJSON, mem_optEntry]
  case _ => intro v; simp [marshalJSON, mem_optEntry]
  case _ => intro v; simp [marshalJSON, mem_optEntry]
  case _ => intro v; simp [marshalJSON, mem_optEntry]
  case _ => intro v; simp [marshalJSON, mem_optEntry]
  case _ => intro v; simp [marshalJSON, mem_optEntry]
  case _ => intro v; simp [marshalJSON, mem_optEntry]
  case _ => intro v; simp [marshalJSON, mem_optEntry]
  case _ => intro v; simp [marshalJSON, mem_optEntry]
  case _ => intro v; simp [marshalJSON, mem_optEntry]
  case _ => intro v; simp [marshalJSON, mem_optEntry]
  case _ => intro v; simp [marshalJSON, mem_optEntry]
  case _ => intro v; simp [marshalJSON, mem_optEntry]
  case _ => intro v; simp [marshalJSON, mem_optEntry]
  case _ => intro v; simp [marshalJSON, mem_optEntry]
  case _ => intro v; simp [marshalJSON, mem_optEntry]
  case _ => intro v; simp [marshalJSON, mem_optEntry]
  case _ => intro v; simp [marshalJSON, mem_optEntry]
  case _ =>
    intro k v h
    simp only [marshalJSON, List.mem_append, or_assoc] at h
    rcases h with h | h | h | h | h | h | h | h | h | h | h |
      h | h | h | h | h | h | h | h | h | h | h <;>
      rw [mem_optEntry_key h] <;> simp
  case _ =>
    intro h
    simp [marshalJSON, mem_optEntry, h]
  case _ =>
    intro h
    simp [marshalJSON, mem_optEntry, h]
  case _ =>
    intro ids
    simp [marshalJSON, idsOnly, optEntry]

/-- Witness for C1's zero-valued conjuncts at a concrete payload. -/
theorem claim1_wire_mapping_exact_witness :
    ("downloadLimit", JVal.num 0)
        ∈ marshalJSON { DownloadLimit := some 0, DownloadLimited := some false } ∧
    ("downloadLimited", JVal.bool false)
        ∈ marshalJSON { DownloadLimit := some 0, DownloadLimited := some false } := by
  obtain ⟨-, -, -, -, -, -, -, -, -, -, -, -, -, -, -, -, -, -, -, -, -, -, -,
    hz1, hz2, -⟩ :=
    claim1_wire_mapping_exact { DownloadLimit := some 0, DownloadLimited := some false }
  exact ⟨hz1 rfl, hz2 rfl⟩

/-! ## Claim C2 : validation precedes the transport -/

/-- Claim C2: for every transport and every payload whose id list is empty,
`TorrentSet` returns the validation error and never invokes the transport;
for every payload with a non-empty id list the transport is invoked exactly
once, with method name `torrent-set`. -/
theorem claim2_validation (rpcCall : String → List (String × JVal) → Option GoError)
    (p : TorrentSetPayload) :
    (goLen p.IDs = 0 →
       (TorrentSet rpcCall p).err = some (GoError.simple "there must be at least one ID") ∧
       (TorrentSet rpcCall p).calls = []) ∧
    (goLen p.IDs ≠ 0 →
       (TorrentSet rpcCall p).calls = [("torrent-set", marshalJSON (fixTrackers p))]) := by
  constructor
  · intro h
    rw [TorrentSet, if_pos h]
    exact ⟨rfl, rfl⟩
  · intro h
    rw [TorrentSet, if_neg h]
    cases hr : rpcCall "torrent-set" (marshalJSON (fixTrackers p)) with
    | some e => rfl
    | none => rfl

/-- Witness for C2 at concrete inputs. -/
theorem claim2_validation_witness :
    ((TorrentSet (fun _ _ => none) (idsOnly [])).err
        = some (GoError.simple "there must be at least one ID") ∧
     (TorrentSet (fun _ _ => none) (idsOnly [])).calls = []) ∧
    (TorrentSet (fun _ _ => none) (idsOnly [1])).calls
        = [("torrent-set", marshalJSON (fixTrackers (idsOnly [1])))] :=
  ⟨(claim2_validation (fun _ _ => none) (idsOnly [])).1 rfl,
   (claim2_validation (fun _ _ => none) (idsOnly [1])).2 (by decide)⟩

/-! ## Claim C6 : durations are sent as whole minutes -/

/-- Claim C6: when the `SeedIdleLimit` duration attribute is set, the encoder
transmits it under the `seedIdleLimit` wire key as an integer count of whole
minutes, truncating any finer-grained remainder; a duration of 90 seconds
(90000000000 nanoseconds) encodes to the integer 1. -/
theorem claim6_seed_idle_minutes (p : TorrentSetPayload) (d : Int)
    (h : p.SeedIdleLimit = some d) :
    (∀ v, ("seedIdleLimit", v) ∈ marshalJSON p ↔ v = JVal.num (durMinutes d)) ∧
    (d = 90000000000 → ("seedIdleLimit", JVal.num 1) ∈ marshalJSON p) := by
  constructor
  · intro v
    simp [marshalJSON, mem_optEntry, h]
  · intro h90
    have h1 : durMinutes d = 1 := by
      rw [h90]
      decide
    simp [marshalJSON, mem_optEntry, h, h1]

/-- Witness for C6 at a concrete payload. -/
theorem claim6_seed_idle_minutes_witness :
    ("seedIdleLimit", JVal.num 1)
      ∈ marshalJSON { SeedIdleLimit := some 90000000000 } :=
  (claim6_seed_idle_minutes { SeedIdleLimit := some 90000000000 } 90000000000 rfl).2 rfl

/-! ## Claim C7 : present-but-empty lists are emitted, nil lists are omitted -/

/-- Claim C7: every list-valued attribute that is present but empty (a
non-nil zero-length list) is emitted under its wire key with an empty-list
value, while a nil (absent) list attribute is omitted entirely. -/
theorem claim7_present_empty_lists (p : TorrentSetPayload) :
    (p.FilesWanted = some [] → ("files-wanted", JVal.listInt []) ∈ marshalJSON p) ∧
    (p.FilesWanted = none → ∀ v, ¬ ("files-wanted", v) ∈ marshalJSON p) ∧
    (p.FilesUnwanted = some [] → ("files-unwanted", JVal.listInt []) ∈ marshalJSON p) ∧
    (p.FilesUnwanted = none → ∀ v, ¬ ("files-unwanted", v) ∈ marshalJSON p) ∧
    (p.Labels = some [] → ("labels", JVal.listStr []) ∈ marshalJSON p) ∧
    (p.Labels = none → ∀ v, ¬ ("labels", v) ∈ marshalJSON p) ∧
    (p.PriorityHigh = some [] → ("priority-high", JVal.listInt []) ∈ marshalJSON p) ∧
    (p.PriorityHigh = none → ∀ v, ¬ ("priority-high", v) ∈ marshalJSON p) ∧
    (p.PriorityLow = some [] → ("priority-low", JVal.listInt []) ∈ marshalJSON p) ∧
    (p.PriorityLow = none → ∀ v, ¬ ("priority-low", v) ∈ marshalJSON p) ∧
    (p.PriorityNormal = some [] → ("priority-normal", JVal.listInt []) ∈ marshalJSON p) ∧
    (p.PriorityNormal = none → ∀ v, ¬ ("priority-normal", v) ∈ marshalJSON p) ∧
    (p.IDs = some [] → ("ids", JVal.listInt []) ∈ marshalJSON p) ∧
    (p.IDs = none → ∀ v, ¬ ("ids", v) ∈ marshalJSON p) := by
  refine ⟨?_, ?_, ?_, ?_, ?_, ?_, ?_, ?_, ?_, ?_, ?_, ?_, ?_, ?_⟩ <;>
    intro h <;>
    first
      | simp [marshalJSON, mem_optEntry, h]
      | (intro v; simp [marshalJSON, mem_optEntry, h])

/-- Witness for C7 at concrete payloads: one with every list attribute
present and empty, one with every attribute absent. -/
theorem claim7_present_empty_lists_witness :
    ("files-wanted", JVal.listInt []) ∈ marshalJSON
      { FilesWanted := some [], FilesUnwanted := some [], Labels := some [],
        PriorityHigh := some [], PriorityLow := some [], PriorityNormal := some [],
        IDs := some [] } ∧
    ("ids", JVal.listInt []) ∈ marshalJSON
      { FilesWanted := some [], FilesUnwanted := some [], Labels := some [],
        PriorityHigh := some [], PriorityLow := some [], PriorityNormal := some [],
        IDs := some [] } ∧
    ¬ ("files-wanted", JVal.listInt [7]) ∈ marshalJSON ({} : TorrentSetPayload) ∧
    ¬ ("ids", JVal.listInt [7]) ∈ marshalJSON ({} : TorrentSetPayload) :=
  ⟨(claim7_present_empty_lists _).1 rfl,
   (claim7_present_empty_lists _).2.2.2.2.2.2.2.2.2.2.2.2.1 rfl,
   (claim7_present_empty_lists _).2.1 rfl _,
   (claim7_present_empty_lists _).2.2.2.2.2.2.2.2.2.2.2.2.2 rfl _⟩

/-! ## Claim C8 : transport errors are wrapped with the method name -/

/-- Claim C8: for every payload that passes validation, a transport failure is
returned wrapped under the context string naming the failing RPC method
(`'torrent-set' rpc method failed`) with the inner error unmodified, and a
transport success yields no error. -/
theorem claim8_transport_error (rpcCall : String → List (String × JVal) → Option GoError)
    (p : TorrentSetPayload) (h : goLen p.IDs ≠ 0) :
    (∀ e, rpcCall "torrent-set" (marshalJSON (fixTrackers p)) = some e →
       (TorrentSet rpcCall p).err
         = some (GoError.wrapped "'torrent-set' rpc method failed" e)) ∧
    (rpcCall "torrent-set" (marshalJSON (fixTrackers p)) = none →
       (TorrentSet rpcCall p).err = none) := by
  constructor
  · intro e he
    rw [TorrentSet, if_neg h, he]
  · intro hn
    rw [TorrentSet, if_neg h, hn]

/-- Witness for C8 with a failing and a succeeding transport. -/
theorem claim8_transport_error_witness :
    (TorrentSet (fun _ _ => some (GoError.simple "boom")) (idsOnly [1])).err
        = some (GoError.wrapped "'torrent-set' rpc method failed" (GoError.simple "boom")) ∧
    (TorrentSet (fun _ _ => none) (idsOnly [1])).err = none :=
  ⟨(claim8_transport_error (fun _ _ => some (GoError.simple "boom")) (idsOnly [1])
      (by decide)).1 (GoError.simple "boom") rfl,
   (claim8_transport_error (fun _ _ => none) (idsOnly [1]) (by decide)).2 rfl⟩

/-! ## Claim C10 : a present-but-empty tracker list is emitted as "" -/

/-- Claim C10: a present-but-empty `TrackerList` (non-nil list of length zero)
is not omitted: the encoder emits the key `trackerList` with the empty string
as its value (joining zero entries with line breaks yields the empty
string). -/
theorem claim10_empty_trackerlist (p : TorrentSetPayload)
    (h : p.TrackerList = some []) :
    ("trackerList", JVal.str "") ∈ marshalJSON p ∧
    (∀ v, ("trackerList", v) ∈ marshalJSON p ↔ v = JVal.str "") := by
  have hj : String.intercalate "\n" ([] : List String) = "" := rfl
  constructor
  · simp [marshalJSON, mem_optEntry, h, hj]
  · intro v
    simp [marshalJSON, mem_optEntry, h, hj]

/-- Witness for C10 at a concrete payload. -/
theorem claim10_empty_trackerlist_witness :
    ("trackerList", JVal.str "") ∈ marshalJSON { TrackerList := some [] } :=
  (claim10_empty_trackerlist { TrackerList := some [] } rfl).1

/-! ## Claim C3 : `compact` is the spec's scan -/

/-- Claim C3: for every sequence sorted ascending, `compact` returns the
subsequence obtained by scanning left to right and removing each element
equal to its immediate predecessor (`dedupAdj`, which keeps the first element
of each equal run and preserves order and identity of retained elements),
as a prefix of the in-place-reshaped backing array; sequences of length 0 or
1 are returned unchanged. -/
theorem claim3_compact_spec_scan {γ : Type _} [DecidableEq γ] [LinearOrder γ]
    (s : List γ) :
    (List.Sorted (fun a b => a ≤ b) s → compact s = dedupAdj s) ∧
    (s.length ≤ 1 → compact s = s) ∧
    (∃ rest, compactBacking s = compact s ++ rest) := by
  refine ⟨fun _ => compact_eq_dedupAdj s, ?_, ?_⟩
  · intro h
    rw [compact, if_pos (by omega)]
  · exact ⟨s.drop ((dedupAdj s).length), by
      rw [compactBacking_eq, compact_eq_dedupAdj]⟩

/-- Witness for C3 at concrete sorted inputs. -/
theorem claim3_compact_spec_scan_witness :
    compact ([1, 1, 2, 2, 3] : List Int) = dedupAdj [1, 1, 2, 2, 3] ∧
    compact ([5] : List Int) = [5] :=
  ⟨(claim3_compact_spec_scan [1, 1, 2, 2, 3]).1 (by decide),
   (claim3_compact_spec_scan [5]).2.1 (by decide)⟩

/-! ## Claim C4 : algebra of the normalizer -/

/-- Claim C4: for every sorted sequence, `compact` leaves no two adjacent
equal elements, yields a subsequence of the input (preserving
first-occurrence order), and is idempotent. -/
theorem claim4_normalizer_algebra {γ : Type _} [DecidableEq γ] [LinearOrder γ]
    (s : List γ) (hs : List.Sorted (fun a b => a ≤ b) s) :
    List.Chain' (fun a b => ¬ a = b) (compact s) ∧
    List.Sublist (compact s) s ∧
    compact (compact s) = compact s := by
  refine ⟨?_, ?_, ?_⟩
  · rw [compact_eq_dedupAdj]
    exact chain'_ne_dedupAdj s
  · rw [compact_eq_dedupAdj]
    exact dedupAdj_sublist s
  · rw [compact_eq_dedupAdj, compact_eq_dedupAdj]
    exact dedupAdj_idem s

/-- Witness for C4 at a concrete sorted input. -/
theorem claim4_normalizer_algebra_witness :
    List.Chain' (fun a b => ¬ a = b) (compact ([1, 1, 2] : List Int)) ∧
    List.Sublist (compact ([1, 1, 2] : List Int)) [1, 1, 2] ∧
    compact (compact ([1, 1, 2] : List Int)) = compact [1, 1, 2] :=
  claim4_normalizer_algebra [1, 1, 2] (by decide)

/-! ## Claim C5 : tracker lists are normalized before encoding -/

/-- Claim C5: `TorrentSet` normalizes the tracker list (sorts ascending and
collapses duplicates) before encoding, so two payloads differing only in the
order and multiplicity of `TrackerList` entries produce identical transport
invocations and identical results; in particular
`["http://b", "http://a", "http://a"]` normalizes to
`["http://a", "http://b"]` and is encoded under the key `trackerList` with
value `"http://a\nhttp://b"` (entries joined by a line break). -/
theorem claim5_tracker_normalization
    (rpcCall : String → List (String × JVal) → Option GoError)
    (p : TorrentSetPayload) (l₁ l₂ : List String)
    (h₁ : p.TrackerList = some l₁) (hmem : ∀ x, x ∈ l₁ ↔ x ∈ l₂) :
    ((TorrentSet rpcCall p).calls
        = (TorrentSet rpcCall { p with TrackerList := some l₂ }).calls ∧
      (TorrentSet rpcCall p).err
        = (TorrentSet rpcCall { p with TrackerList := some l₂ }).err) ∧
    compact (sortStrings ["http://b", "http://a", "http://a"])
      = ["http://a", "http://b"] ∧
    (∀ q : TorrentSetPayload, q.TrackerList = some ["http://b", "http://a", "http://a"] →
      ("trackerList", JVal.str "http://a\nhttp://b") ∈ marshalJSON (fixTrackers q)) := by
  have hsorted_rhs :
      List.Sorted (fun a b : String => a ≤ b) ["http://a", "http://a", "http://b"] := by
    have hab : ("http://a" : String) ≤ "http://b" :=
      le_of_lt (String.lt_iff_toList_lt.mpr (by decide))
    refine List.Pairwise.cons ?_ (List.Pairwise.cons ?_ ?_)
    · intro x hx
      rcases List.mem_cons.mp hx with h | h
      · rw [h]
      · rw [List.mem_singleton] at h
        rw [h]
        exact hab
    · intro x hx
      rw [List.mem_singleton] at hx
      rw [hx]
      exact hab
    · simp
  have hperm : (sortStrings ["http://b", "http://a", "http://a"]).Perm
      ["http://a", "http://a", "http://b"] :=
    (perm_sortStrings _).trans (by decide)
  haveI : IsAntisymm String (fun a b : String => a ≤ b) :=
    ⟨fun a b hab hba => le_antisymm hab hba⟩
  have hsort : sortStrings ["http://b", "http://a", "http://a"]
      = ["http://a", "http://a", "http://b"] :=
    List.eq_of_perm_of_sorted hperm (sorted_sortStrings _) hsorted_rhs
  have hnorm : compact (sortStrings ["http://b", "http://a", "http://a"])
      = ["http://a", "http://b"] := by
    rw [compact_eq_dedupAdj, hsort]
    decide
  refine ⟨?_, hnorm, ?_⟩
  · have hc := compact_sortStrings_ext l₁ l₂ hmem
    have hfix : fixTrackers p = fixTrackers { p with TrackerList := some l₂ } := by
      simp [fixTrackers, h₁, hc]
    have hids : goLen ({ p with TrackerList := some l₂ } : TorrentSetPayload).IDs
        = goLen p.IDs := rfl
    by_cases hc0 : goLen p.IDs = 0
    · rw [TorrentSet, TorrentSet, hids, if_pos hc0, if_pos hc0]
      exact ⟨rfl, rfl⟩
    · rw [TorrentSet, TorrentSet, hids, if_neg hc0, if_neg hc0, ← hfix]
      cases hr : rpcCall "torrent-set" (marshalJSON (fixTrackers p)) with
      | some e => exact ⟨rfl, rfl⟩
      | none => exact ⟨rfl, rfl⟩
  · intro q hq
    have hqfix : (fixTrackers q).TrackerList = some ["http://a", "http://b"] := by
      simp [fixTrackers, hq, hnorm]
    have hjoin : String.intercalate "\n" ["http://a", "http://b"]
        = "http://a\nhttp://b" := by decide
    simp [marshalJSON, mem_optEntry, hqfix, hjoin]

/-- Witness for C5 at concrete inputs: a permuted tracker list yields the
same transport invocations. -/
theorem claim5_tracker_normalization_witness :
    (TorrentSet (fun _ _ => none)
        { IDs := some [1], TrackerList := some ["a", "b"] }).calls
      = (TorrentSet (fun _ _ => none)
          { IDs := some [1], TrackerList := some ["b", "a"] }).calls :=
  (claim5_tracker_normalization (fun _ _ => none)
    { IDs := some [1], TrackerList := some ["a", "b"] } ["a", "b"] ["b", "a"]
    rfl (fun x => by simp [List.mem_cons, or_comm])).1.1

/-! ## Claim C9 : the caller-visible tracker list is mutated in place -/

/-- Claim C9: the normalization step mutates the caller-visible tracker list
through the shared backing array: after a call with a non-empty id list, the
caller's original `TrackerList` slice views the sorted contents with the
deduplicated prefix in front (`dedupAdj` of the sorted list followed by the
leftover tail of the backing array), at the original length, instead of the
order it was supplied in. -/
theorem claim9_in_place_mutation
    (rpcCall : String → List (String × JVal) → Option GoError)
    (p : TorrentSetPayload) (l : List String)
    (hl : p.TrackerList = some l) (hids : goLen p.IDs ≠ 0) :
    (TorrentSet rpcCall p).callerTrackerList
      = some (dedupAdj (sortStrings l)
          ++ (sortStrings l).drop ((dedupAdj (sortStrings l)).length)) ∧
    (∀ cl, (TorrentSet rpcCall p).callerTrackerList = some cl → cl.length = l.length) ∧
    List.Sorted (fun a b => a ≤ b) (sortStrings l) ∧
    (sortStrings l).Perm l := by
  have hct : (TorrentSet rpcCall p).callerTrackerList = callerTrackers p := by
    rw [TorrentSet, if_neg hids]
    cases hr : rpcCall "torrent-set" (marshalJSON (fixTrackers p)) with
    | some e => rfl
    | none => rfl
  have hcv : callerTrackers p = some (compactBacking (sortStrings l)) := by
    simp [callerTrackers, hl]
  refine ⟨?_, ?_, sorted_sortStrings l, perm_sortStrings l⟩
  · rw [hct, hcv, compactBacking_eq]
  · intro cl hcl
    rw [hct, hcv] at hcl
    have hcl' : cl = compactBacking (sortStrings l) := (Option.some.inj hcl).symm
    rw [hcl', compactBacking_length]
    exact (perm_sortStrings l).length_eq

/-- Witness for C9 at a concrete payload. -/
theorem claim9_in_place_mutation_witness :
    (TorrentSet (fun _ _ => none)
        { IDs := some [1], TrackerList := some ["b", "a"] }).callerTrackerList
      = some (dedupAdj (sortStrings ["b", "a"])
          ++ (sortStrings ["b", "a"]).drop ((dedupAdj (sortStrings ["b", "a"])).length)) :=
  (claim9_in_place_mutation (fun _ _ => none)
    { IDs := some [1], TrackerList := some ["b", "a"] } ["b", "a"] rfl (by decide)).1

end TransmissionRpc
